import Mathlib

/-!
Verification development for the temporal quality-control routines of the
quality-assessment-protocol repository (src/qap/temporal_qc.py).

Conventions of the shallow embedding:
* Python floats are modelled as exact rationals (`ℚ`); results of `math.sqrt`
  / `np.std` live in `ℝ` via `Real.sqrt`.
* NumPy n-dimensional arrays are modelled as (rectangular) nested lists.
* Fallible code paths are modelled with `Except PyErr`.
* `float(...)` applied to a string is modelled by `pyFloatOfString`, which
  follows the Python float-literal grammar (optional sign, decimal digits with
  optional fraction and exponent, and the case-insensitive special words
  nan / inf / infinity), with surrounding whitespace stripped.
-/

attribute [local semireducible] Rat.add Rat.mul Rat.inv Rat.sub

set_option maxRecDepth 8000

/-- Error kinds of the embedding.  `numericError` is the spec's NumericError
(`raise_smart_exception` lives in `qap.qap_utils`, which is not part of the
sources; the spec maps ill-defined statistics to NumericError).  `typeError`
and `indexError` model the corresponding Python runtime exceptions. -/
inductive PyErr where
  | numericError
  | typeError
  | indexError
  deriving DecidableEq, Repr

instance {ε α : Type} [DecidableEq ε] [DecidableEq α] :
    DecidableEq (Except ε α) := fun a b =>
  match a, b with
  | Except.error e, Except.error f => decidable_of_iff (e = f) (by simp)
  | Except.error _, Except.ok _ => isFalse (by simp)
  | Except.ok _, Except.error _ => isFalse (by simp)
  | Except.ok a, Except.ok b => decidable_of_iff (a = b) (by simp)

/-- The result of Python's `float(str)`: a finite value (exact rational),
or one of the special values nan / inf / -inf. -/
inductive PyFloat where
  | finite (q : ℚ)
  | nan
  | inf
  | ninf
  deriving DecidableEq, Repr

/-- Numeric value of a list of decimal digit characters (most significant
first), as a rational. -/
def digitsVal (ds : List Char) : ℚ :=
  ds.foldl (fun a c => a * 10 + ((c.toNat - 48 : ℕ) : ℚ)) 0

/-- Parse the exponent part of a float literal (after the `e`): an optional
sign followed by at least one digit.  Given the mantissa value `m`, returns
the scaled value. -/
def pyParseExponent (m : ℚ) (cs : List Char) : Option ℚ :=
  let (eneg, cs) :=
    match cs with
    | '+' :: t => (false, t)
    | '-' :: t => (true, t)
    | t => (false, t)
  let ed := cs.takeWhile Char.isDigit
  let rest := cs.dropWhile Char.isDigit
  if ed = [] ∨ rest ≠ [] then none
  else
    let e : ℕ := (digitsVal ed).num.toNat
    some (if eneg then m / 10 ^ e else m * 10 ^ e)

/-- Parse an unsigned decimal float literal: `digits [. digits] [e exp]` or
`. digits [e exp]`, requiring at least one digit in the mantissa. -/
def pyParseDecimal (cs : List Char) : Option ℚ :=
  let ip := cs.takeWhile Char.isDigit
  let rest := cs.dropWhile Char.isDigit
  match rest with
  | [] => if ip = [] then none else some (digitsVal ip)
  | '.' :: r2 =>
    let fp := r2.takeWhile Char.isDigit
    let r3 := r2.dropWhile Char.isDigit
    if ip = [] ∧ fp = [] then none
    else
      let m := digitsVal ip + digitsVal fp / 10 ^ fp.length
      match r3 with
      | [] => some m
      | 'e' :: r4 => pyParseExponent m r4
      | _ => none
  | 'e' :: r2 => if ip = [] then none else pyParseExponent (digitsVal ip) r2
  | _ => none

/-- Python's `float(str)` on a single line: strip surrounding whitespace,
lower-case (the grammar is case-insensitive), read an optional sign, then
either a special word (inf / infinity / nan) or a decimal literal.
`none` models a raised `ValueError`. -/
def pyFloatOfString (s : String) : Option PyFloat :=
  let cs := ((s.toList.dropWhile Char.isWhitespace).reverse.dropWhile
      Char.isWhitespace).reverse.map Char.toLower
  if cs = [] then none
  else
    let (neg, cs) :=
      match cs with
      | '+' :: t => (false, t)
      | '-' :: t => (true, t)
      | t => (false, t)
    if cs = ['i', 'n', 'f'] ∨ cs = ['i', 'n', 'f', 'i', 'n', 'i', 't', 'y'] then
      some (if neg then PyFloat.ninf else PyFloat.inf)
    else if cs = ['n', 'a', 'n'] then
      some PyFloat.nan
    else
      match pyParseDecimal cs with
      | some q => some (PyFloat.finite (if neg then -q else q))
      | none => none

/-- Split a list of characters at newline characters
(`str.splitlines()` for newline-separated text). -/
def splitLinesCh : List Char → List (List Char)
  | [] => [[]]
  | '\n' :: t => [] :: splitLinesCh t
  | c :: t =>
    match splitLinesCh t with
    | [] => [[c]]
    | l :: ls => (c :: l) :: ls

/-- Embedding of `pass_floats` (temporal_qc.py, lines 5-25): split the input
into lines, try `float(line)` on each line, keep the successful values and
silently drop the lines on which `float` raises. -/
def pass_floats (output_string : String) : List PyFloat :=
  (splitLinesCh output_string.toList).filterMap
    (fun l => pyFloatOfString (String.mk l))

/-- `np.percentile(xs, q)` with the default linear-interpolation (type 7)
method, on an already sorted non-empty list `xs`:
position `h = (n-1)*q/100`, floor index `i`, linear interpolation between
`xs[i]` and `xs[i+1]` (the last element if the index is out of range). -/
def percentileLin (xs : List ℚ) (q : ℚ) : ℚ :=
  let n := xs.length
  let h : ℚ := ((n : ℚ) - 1) * q / 100
  let i : ℕ := (Int.floor h).toNat
  if i + 1 < n then
    xs.getD i 0 + (h - (i : ℚ)) * (xs.getD (i + 1) 0 - xs.getD i 0)
  else
    xs.getD (n - 1) 0

/-- Embedding of `calculate_percent_outliers` (temporal_qc.py, lines 28-67):
sort the values, compute Q3 and Q1 (75th / 25th percentiles), IQR = Q3 - Q1,
flag values above `Q3 + 1.5*IQR` or below `Q1 - 1.5*IQR` as outliers and
return (fraction of outliers, IQR).  On the empty vector `np.percentile`
raises and the `except` branch calls `raise_smart_exception`; following the
spec this is modelled as a NumericError. -/
def calculate_percent_outliers (values_list : List ℚ) :
    Except PyErr (ℚ × ℚ) :=
  if values_list.length = 0 then Except.error PyErr.numericError
  else
    let sorted_values := values_list.insertionSort (· ≤ ·)
    let third_qr := percentileLin sorted_values 75
    let first_qr := percentileLin sorted_values 25
    let IQR := third_qr - first_qr
    let third_qr_threshold := third_qr + (3 / 2) * IQR
    let first_qr_threshold := first_qr - (3 / 2) * IQR
    let high_outliers := sorted_values.filter (fun v => third_qr_threshold < v)
    let low_outliers := sorted_values.filter (fun v => v < first_qr_threshold)
    let percent_outliers :=
      ((high_outliers.length + low_outliers.length : ℕ) : ℚ) /
        (sorted_values.length : ℚ)
    Except.ok (percent_outliers, IQR)

/-- A 4×4 rigid-body transformation matrix over the rationals. -/
abbrev Mat4 := Matrix (Fin 4) (Fin 4) ℚ

/-- One row of the `-1Dmatrix_save` input file: 12 values forming a 3×4
affine, row-major. -/
abbrev Row12 := Fin 3 → Fin 4 → ℚ

/-- Appending the homogeneous row `[0,0,0,1]` to a stored 3×4 matrix and
reshaping row-major to 4×4 (temporal_qc.py, lines 124-136). -/
def toHom (r : Row12) : Mat4 :=
  Matrix.of fun i j =>
    if h : (i : ℕ) < 3 then r ⟨(i : ℕ), h⟩ j
    else if (j : ℕ) = 3 then 1 else 0

/-- NumPy's `matrix.I` on a 4×4 rational matrix: `det⁻¹ • adjugate`
(the nonsingular inverse; over the field ℚ this coincides with Mathlib's
`Inv.inv` for matrices). -/
def matInv4 (A : Mat4) : Mat4 := A.det⁻¹ • A.adjugate

lemma matInv4_eq_inv (A : Mat4) : matInv4 A = A⁻¹ := by
  rw [Matrix.inv_def, Ring.inverse_eq_inv']
  rfl

/-- The quantity under the square root in the loop body of `fd_jenkinson`
(temporal_qc.py, lines 141-146): with `M = T_rb · T_rb_prev⁻¹ − I`,
`A = M[0:3,0:3]` and `b = M[0:3,3]`, this is
`(rmax·rmax/5) · trace(Aᵀ·A) + bᵀ·b`. -/
def fdRadicand (rmax : ℚ) (T_rb_prev T_rb : Mat4) : ℚ :=
  let M := T_rb * matInv4 T_rb_prev - 1
  let A := M.submatrix Fin.castSucc Fin.castSucc
  let b : Fin 3 → ℚ := fun k => M k.castSucc 3
  rmax * rmax / 5 * Matrix.trace (A.transpose * A) + Matrix.dotProduct b b

/-- The loop of `fd_jenkinson` after the first iteration: one FD value per
remaining matrix, each computed from the running previous matrix. -/
noncomputable def fdLoop (rmax : ℚ) : Mat4 → List Mat4 → List ℝ
  | _, [] => []
  | prev, t :: rest =>
    Real.sqrt ((fdRadicand rmax prev t : ℚ) : ℝ) :: fdLoop rmax t rest

/-- Embedding of `fd_jenkinson` (temporal_qc.py, lines 70-159) from the
point where the rows have been parsed: pad every row with `[0,0,0,1]`,
start the output with the fixed first value `0`, and emit one Jenkinson FD
value per subsequent timepoint (the `flag` dance in the source skips the
computation for the first row and only stores it as the previous
transform). -/
noncomputable def fd_jenkinson (ts : List Row12) (rmax : ℚ) : List ℝ :=
  match ts with
  | [] => [0]
  | t :: rest => 0 :: fdLoop rmax (toHom t) (rest.map toHom)

/-- The Jenkinson FD formula as the spec and C1 state it: with
`M = T_i · inverse(T_{i−1}) − Identity(4)`, `A = M[0:3,0:3]`,
`b = M[0:3,3]`, the displacement is
`sqrt((rmax²/5) · trace(Aᵀ·A) + bᵀ·b)`. -/
noncomputable def jenkinsonFD (rmax : ℚ) (Tprev Tcur : Mat4) : ℝ :=
  let M := Tcur * Tprev⁻¹ - 1
  let A := M.submatrix Fin.castSucc Fin.castSucc
  let b : Fin 3 → ℚ := fun k => M k.castSucc 3
  Real.sqrt ((rmax ^ 2 / 5 * Matrix.trace (A.transpose * A) + Matrix.dotProduct b b : ℚ) : ℝ)

lemma fdLoop_length (rmax : ℚ) :
    ∀ (ms : List Mat4) (prev : Mat4), (fdLoop rmax prev ms).length = ms.length
  | [], _ => rfl
  | _ :: tail, _ => by
    simp only [fdLoop, List.length_cons, fdLoop_length rmax tail]

lemma fdLoop_getD (rmax : ℚ) :
    ∀ (ms : List Mat4) (prev : Mat4) (j : ℕ), j < ms.length →
      (fdLoop rmax prev ms).getD j 0 =
        Real.sqrt ((fdRadicand rmax ((prev :: ms).getD j 1) (ms.getD j 1) : ℚ) : ℝ)
  | [], _, j, hj => absurd hj (by simp)
  | m :: tail, prev, 0, _ => rfl
  | m :: tail, prev, j + 1, hj => by
    have ih := fdLoop_getD rmax tail m j (by simpa using hj)
    simpa only [fdLoop, List.getD_cons_succ] using ih

lemma getD_map_toHom :
    ∀ (l : List Row12) (n : ℕ), n < l.length →
      (l.map toHom).getD n 1 = toHom (l.getD n (fun _ _ => 0))
  | [], n, hn => absurd hn (by simp)
  | a :: l, 0, _ => rfl
  | a :: l, n + 1, hn => by
    simpa only [List.map_cons, List.getD_cons_succ] using
      getD_map_toHom l n (by simpa using hn)

lemma sqrt_fdRadicand_eq (rmax : ℚ) (Tprev Tcur : Mat4) :
    Real.sqrt ((fdRadicand rmax Tprev Tcur : ℚ) : ℝ) = jenkinsonFD rmax Tprev Tcur := by
  unfold fdRadicand jenkinsonFD
  rw [matInv4_eq_inv, pow_two]

/-- C2: for every transform sequence of length N ≥ 1, the displacement
series produced by `fd_jenkinson` has length exactly N, and its element 0
equals 0 (it is the fixed initial element of the output list, not a
computed value). -/
theorem C2_length_and_fixed_first (ts : List Row12) (rmax : ℚ)
    (h : 1 ≤ ts.length) :
    (fd_jenkinson ts rmax).length = ts.length ∧
    (fd_jenkinson ts rmax).getD 0 0 = 0 := by
  cases ts with
  | nil => simp at h
  | cons t rest =>
    refine ⟨?_, rfl⟩
    simp only [fd_jenkinson, List.length_cons, fdLoop_length, List.length_map]

/-- C1: for every transform sequence, radius and timepoint `i ≥ 1` in
range, the `i`-th output of `fd_jenkinson` equals the Jenkinson formula
`sqrt((rmax²/5)·trace(Aᵀ·A) + bᵀ·b)` evaluated on
`M = T_i · inverse(T_{i−1}) − Identity(4)`, where `T_{i−1}` is the raw
previous-timepoint transform (each stored 3×4 row extended by the
homogeneous row before use). -/
theorem C1_fd_jenkinson_formula (ts : List Row12) (rmax : ℚ) (i : ℕ)
    (h1 : 1 ≤ i) (h2 : i < ts.length)
    (hdet : (toHom (ts.getD (i - 1) (fun _ _ => 0))).det ≠ 0) :
    (fd_jenkinson ts rmax).getD i 0 =
      jenkinsonFD rmax (toHom (ts.getD (i - 1) (fun _ _ => 0)))
        (toHom (ts.getD i (fun _ _ => 0))) := by
  clear hdet
  cases ts with
  | nil => exact absurd h2 (by simp)
  | cons t rest =>
  cases i with
  | zero => exact absurd h1 (by simp)
  | succ j =>
    have hj : j < rest.length := by simpa using h2
    have hj2 : j < (rest.map toHom).length := by simpa using hj
    have key := fdLoop_getD rmax (rest.map toHom) (toHom t) j hj2
    have hcur : (rest.map toHom).getD j 1 = toHom (rest.getD j (fun _ _ => 0)) :=
      getD_map_toHom rest j hj
    have hprev : ((toHom t :: rest.map toHom).getD j 1) =
        toHom ((t :: rest).getD j (fun _ _ => 0)) := by
      cases j with
      | zero => rfl
      | succ k =>
        simpa only [List.getD_cons_succ] using
          getD_map_toHom rest k (Nat.lt_of_succ_lt hj)
    calc (fd_jenkinson (t :: rest) rmax).getD (j + 1) 0
        = (fdLoop rmax (toHom t) (rest.map toHom)).getD j 0 := rfl
      _ = Real.sqrt ((fdRadicand rmax ((toHom t :: rest.map toHom).getD j 1)
            ((rest.map toHom).getD j 1) : ℚ) : ℝ) := key
      _ = jenkinsonFD rmax (toHom ((t :: rest).getD j (fun _ _ => 0)))
            (toHom ((t :: rest).getD (j + 1) (fun _ _ => 0))) := by
          rw [hcur, hprev, sqrt_fdRadicand_eq]
          rfl

/-- The identity transform as a stored 3×4 row. -/
def idRow : Row12 := fun i j => if (i : ℕ) = (j : ℕ) then 1 else 0

/-- A pure translation by 3 along the first axis, as a stored 3×4 row. -/
def transRow : Row12 := fun i j =>
  if (j : ℕ) = 3 then (if (i : ℕ) = 0 then 3 else 0)
  else if (i : ℕ) = (j : ℕ) then 1 else 0

lemma toHom_idRow : toHom idRow = 1 := by
  ext i j
  fin_cases i <;> fin_cases j <;>
    simp [toHom, idRow, Matrix.one_apply] <;> decide

/-- C1 witness: the formula theorem applied to the concrete two-timepoint
sequence [identity, translation by 3] with the default radius 80. -/
theorem C1_witness :
    1 ≤ 1 ∧ 1 < ([idRow, transRow] : List Row12).length ∧
    (toHom (([idRow, transRow] : List Row12).getD 0 (fun _ _ => 0))).det ≠ 0 ∧
    (fd_jenkinson [idRow, transRow] 80).getD 1 0 =
      jenkinsonFD 80 (toHom (([idRow, transRow] : List Row12).getD 0 (fun _ _ => 0)))
        (toHom (([idRow, transRow] : List Row12).getD 1 (fun _ _ => 0))) := by
  have hdet : (toHom (([idRow, transRow] : List Row12).getD 0 (fun _ _ => 0))).det ≠ 0 := by
    show (toHom idRow).det ≠ 0
    rw [toHom_idRow, Matrix.det_one]
    exact one_ne_zero
  exact ⟨le_refl 1, by decide, hdet,
    C1_fd_jenkinson_formula [idRow, transRow] 80 1 (le_refl 1) (by decide) hdet⟩

/-- C2 witness: the length/first-element theorem applied to the same
concrete two-timepoint sequence. -/
theorem C2_witness :
    1 ≤ ([idRow, transRow] : List Row12).length ∧
    (fd_jenkinson [idRow, transRow] 80).length =
      ([idRow, transRow] : List Row12).length ∧
    (fd_jenkinson [idRow, transRow] 80).getD 0 0 = 0 :=
  ⟨by decide, (C2_length_and_fixed_first [idRow, transRow] 80 (by decide)).1,
    (C2_length_and_fixed_first [idRow, transRow] 80 (by decide)).2⟩

/-- `np.mean` over the reals. -/
noncomputable def meanR (l : List ℝ) : ℝ := l.sum / l.length

/-- Population variance over the reals (`np.std` squared, ddof = 0). -/
noncomputable def pvarR (l : List ℝ) : ℝ :=
  (l.map fun x => (x - meanR l) ^ 2).sum / l.length

/-- `scipy.stats.mstats.zscore` with the default ddof = 0 (population
formula): subtract the mean and divide by the population standard
deviation. -/
noncomputable def zscore (ts : List ℚ) : List ℝ :=
  let l : List ℝ := ts.map (Rat.cast : ℚ → ℝ)
  l.map fun x => (x - meanR l) / Real.sqrt (pvarR l)

/-- `ndarray.transpose()` of a rectangular 2-D array given as a list of
rows. -/
def transposeL : List (List ℝ) → List (List ℝ)
  | [] => []
  | [r] => r.map fun x => [x]
  | r :: rest => List.zipWith List.cons r (transposeL rest)

/-- Embedding of `global_correlation` (temporal_qc.py, lines 252-299) from
the point where the masked voxel time series have been loaded (`dvars.load`
and the file I/O live outside the sources): z-score each voxel's time
series, transpose, average the z-scored values across voxels at each
timepoint, and return the self-dot-product of the grand-average timeseries
divided by its length. -/
noncomputable def global_correlation (voxels : List (List ℚ)) : ℝ :=
  let demeaned_normed := voxels.map zscore
  let volume_list := transposeL demeaned_normed
  let avg_ts := volume_list.map meanR
  (avg_ts.map fun x => x * x).sum / avg_ts.length

lemma meanR_singleton (x : ℝ) : meanR [x] = x := by
  simp [meanR]

lemma sum_map_div (l : List ℝ) (g : ℝ → ℝ) (c : ℝ) :
    (l.map fun x => g x / c).sum = (l.map g).sum / c := by
  induction l with
  | nil => simp
  | cons a l ih => simp [ih, add_div]

lemma sum_eq_zero_all_zero :
    ∀ (l : List ℝ), (∀ x ∈ l, 0 ≤ x) → l.sum = 0 → ∀ x ∈ l, x = 0
  | [], _, _, x, hx => absurd hx (by simp)
  | a :: l, hpos, hsum, x, hx => by
    have ha : 0 ≤ a := hpos a (List.mem_cons_self a l)
    have hl : 0 ≤ l.sum :=
      List.sum_nonneg fun y hy => hpos y (List.mem_cons_of_mem a hy)
    have hsum2 : a + l.sum = 0 := by simpa using hsum
    rcases List.mem_cons.mp hx with rfl | hx2
    · linarith
    · exact sum_eq_zero_all_zero l
        (fun y hy => hpos y (List.mem_cons_of_mem a hy)) (by linarith) x hx2

lemma global_correlation_single (ts : List ℚ) :
    global_correlation [ts] =
      ((zscore ts).map fun x => x * x).sum / ((zscore ts).length : ℝ) := by
  unfold global_correlation
  show ((transposeL [zscore ts]).map meanR |>.map fun x => x * x).sum /
      ((transposeL [zscore ts]).map meanR).length = _
  rw [show transposeL [zscore ts] = (zscore ts).map (fun x => [x]) from rfl]
  have hinner : ((zscore ts).map fun x => [x]).map meanR = zscore ts := by
    rw [List.map_map]
    exact (List.map_congr_left fun a _ => meanR_singleton a).trans
      (List.map_id (zscore ts))
  rw [hinner]

/-- C4: `global_correlation` on a mask containing exactly one voxel whose
time series is non-constant equals exactly 1: the grand average over one
voxel is the z-scored series itself, and its self-dot-product divided by
the number of timepoints is 1 under the population z-score normalisation. -/
theorem C4_gcor_single_voxel_is_one (ts : List ℚ)
    (hvar : ∃ x ∈ ts, ∃ y ∈ ts, x ≠ y) :
    global_correlation [ts] = 1 := by
  obtain ⟨x, hx, y, hy, hxy⟩ := hvar
  set l : List ℝ := ts.map (Rat.cast : ℚ → ℝ) with l_def
  set μ := meanR l with mu_def
  set S := (l.map fun v => (v - μ) ^ 2).sum with S_def
  have hlen_eq : l.length = ts.length := by
    rw [l_def]
    exact List.length_map ts _
  have hn0 : 0 < ts.length := List.length_pos.mpr (by rintro rfl; simp at hx)
  have hnR : (0 : ℝ) < (l.length : ℝ) := by
    rw [hlen_eq]
    exact_mod_cast hn0
  have hV_eq : pvarR l = S / (l.length : ℝ) := rfl
  have hS0 : 0 ≤ S := by
    rw [S_def]
    exact List.sum_nonneg fun z hz => by
      obtain ⟨w, _, rfl⟩ := List.mem_map.mp hz
      positivity
  have hV0 : 0 ≤ pvarR l := by
    rw [hV_eq]
    positivity
  have hSpos : 0 < S := by
    rcases lt_or_eq_of_le hS0 with hlt | heq
    · exact hlt
    · exfalso
      have hall := sum_eq_zero_all_zero (l.map fun v => (v - μ) ^ 2)
        (fun z hz => by
          obtain ⟨w, _, rfl⟩ := List.mem_map.mp hz
          positivity)
        heq.symm
      have hxl : ((x : ℝ)) ∈ l := by
        rw [l_def]
        exact List.mem_map_of_mem _ hx
      have hyl : ((y : ℝ)) ∈ l := by
        rw [l_def]
        exact List.mem_map_of_mem _ hy
      have hx0 : ((x : ℝ) - μ) ^ 2 = 0 :=
        hall _ (List.mem_map_of_mem _ hxl)
      have hy0 : ((y : ℝ) - μ) ^ 2 = 0 :=
        hall _ (List.mem_map_of_mem _ hyl)
      have hx2 : (x : ℝ) = μ := by
        have := sub_eq_zero.mp (sq_eq_zero_iff.mp hx0)
        linarith
      have hy2 : (y : ℝ) = μ := by
        have := sub_eq_zero.mp (sq_eq_zero_iff.mp hy0)
        linarith
      exact hxy (by exact_mod_cast hx2.trans hy2.symm)
  have hVpos : 0 < pvarR l := by
    rw [hV_eq]
    positivity
  have hsig : Real.sqrt (pvarR l) * Real.sqrt (pvarR l) = pvarR l :=
    Real.mul_self_sqrt hV0
  rw [global_correlation_single]
  have hz_def : zscore ts = l.map fun v => (v - μ) / Real.sqrt (pvarR l) := rfl
  rw [hz_def, List.map_map, List.length_map]
  have hpt : l.map ((fun z => z * z) ∘ fun v => (v - μ) / Real.sqrt (pvarR l)) =
      l.map fun v => (v - μ) ^ 2 / pvarR l := by
    apply List.map_congr_left
    intro a _
    show ((a - μ) / Real.sqrt (pvarR l)) * ((a - μ) / Real.sqrt (pvarR l)) =
      (a - μ) ^ 2 / pvarR l
    rw [div_mul_div_comm, hsig, ← pow_two]
  rw [hpt, sum_map_div, ← S_def, hV_eq]
  have hSne : S ≠ 0 := ne_of_gt hSpos
  have hnne : (l.length : ℝ) ≠ 0 := ne_of_gt hnR
  field_simp

/-- C4 witness: the theorem applied to the single-voxel series `[1,2,3,4]`
suggested by the spec. -/
theorem C4_witness :
    (∃ x ∈ ([1, 2, 3, 4] : List ℚ), ∃ y ∈ ([1, 2, 3, 4] : List ℚ), x ≠ y) ∧
      global_correlation [[1, 2, 3, 4]] = 1 :=
  ⟨by decide, C4_gcor_single_voxel_is_one [1, 2, 3, 4] (by decide)⟩
def sortedFixture : List ℚ := ([1, 2, 3, 4, 5, 100] : List ℚ).insertionSort (· ≤ ·)

/-- C5 (counterexample): on `[1,2,3,4,5,100]`, the quartiles computed by the
linear-interpolation (type 7) percentile method are not Q1 = 2 and Q3 = 4.5
as the claim states: the 25th percentile is 2.25, not 2. -/
theorem C5_counterexample :
    ¬(percentileLin sortedFixture 25 = 2 ∧ percentileLin sortedFixture 75 = 9 / 2) := by
  decide

/-- C5 (amended): for the input `[1,2,3,4,5,100]`,
`calculate_percent_outliers` returns percent_outliers = 1/6 and IQR = 2.5,
with quartiles Q1 = 2.25 and Q3 = 4.75 under linear interpolation; the value
100 (and only 100) lies outside the `[Q1 - 1.5 IQR, Q3 + 1.5 IQR]` fences. -/
theorem C5_amended_fixture_outliers :
    calculate_percent_outliers [1, 2, 3, 4, 5, 100] = Except.ok (1 / 6, 5 / 2) ∧
    percentileLin sortedFixture 25 = 9 / 4 ∧
    percentileLin sortedFixture 75 = 19 / 4 ∧
    sortedFixture.filter (fun v => 19 / 4 + (3 / 2) * (5 / 2) < v) = [100] ∧
    sortedFixture.filter (fun v => v < 9 / 4 - (3 / 2) * (5 / 2)) = [] := by
  refine ⟨by decide, by decide, by decide, by decide, by decide⟩

/-- C7: on the empty vector, `calculate_percent_outliers` fails with a
NumericError (the percentile of an empty vector is undefined) instead of
returning a result. -/
theorem C7_empty_vector_numeric_error :
    calculate_percent_outliers ([] : List ℚ) = Except.error PyErr.numericError := by
  decide

/-- The concrete external-tool output fixture of C8 (the characters spell
three dashes-free lines around one warning line):
the string 3.5, newline, dash dash space warning space dash dash, newline,
2.1, newline, NaN. -/
def afniFixture : String :=
  String.mk
    ['3', '.', '5', '\n', '-', '-', ' ', 'w', 'a', 'r', 'n', 'i', 'n', 'g',
     ' ', '-', '-', '\n', '2', '.', '1', '\n', 'N', 'a', 'N']

/-- C8 (counterexample): parsing the fixture does not yield `[3.5, 2.1]`;
Python's `float("NaN")` succeeds, so the NaN line is kept, not dropped. -/
theorem C8_counterexample :
    pass_floats afniFixture ≠ [PyFloat.finite (7 / 2), PyFloat.finite (21 / 10)] := by
  decide

lemma getD_mem_of_lt : ∀ (l : List ℚ) (n : ℕ), n < l.length → l.getD n 0 ∈ l
  | [], n, h => absurd h (by simp)
  | a :: l, 0, _ => List.mem_cons_self a l
  | a :: l, n + 1, h =>
    List.mem_cons_of_mem a (getD_mem_of_lt l n (by simpa using h))

lemma sorted_getD_mono :
    ∀ (xs : List ℚ), xs.Sorted (· ≤ ·) → ∀ a b : ℕ, a ≤ b → b < xs.length →
      xs.getD a 0 ≤ xs.getD b 0
  | [], _, _, b, _, hb => absurd hb (by simp)
  | x :: xs, _, 0, 0, _, _ => le_refl _
  | x :: xs, hs, 0, b + 1, _, hb => by
    have hb2 : b < xs.length := by simpa using hb
    exact (List.sorted_cons.mp hs).1 _ (getD_mem_of_lt xs b hb2)
  | x :: xs, hs, a + 1, b + 1, hab, hb => by
    simpa only [List.getD_cons_succ] using
      sorted_getD_mono xs (List.sorted_cons.mp hs).2 a b (by omega) (by simpa using hb)

lemma percentileLin_mono (xs : List ℚ) (hs : xs.Sorted (· ≤ ·)) (hne : xs ≠ [])
    (q qB : ℚ) (hq0 : 0 ≤ q) (hqq : q ≤ qB) (hq100 : qB ≤ 100) :
    percentileLin xs q ≤ percentileLin xs qB := by
  have hn : 1 ≤ xs.length := List.length_pos.mpr hne
  set n := xs.length with hn_def
  set h : ℚ := ((n : ℚ) - 1) * q / 100 with h_def
  set hB : ℚ := ((n : ℚ) - 1) * qB / 100 with hB_def
  have hn1 : (0 : ℚ) ≤ (n : ℚ) - 1 := by
    have : (1 : ℚ) ≤ (n : ℚ) := by exact_mod_cast hn
    linarith
  have hh0 : 0 ≤ h := by
    rw [h_def]
    positivity
  have hhh : h ≤ hB := by
    rw [h_def, hB_def]
    have := mul_le_mul_of_nonneg_left hqq hn1
    linarith
  have hhBtop : hB ≤ (n : ℚ) - 1 := by
    rw [hB_def]
    rw [div_le_iff₀ (by norm_num : (0 : ℚ) < 100)]
    nlinarith
  set i : ℕ := (Int.floor h).toNat with i_def
  set iB : ℕ := (Int.floor hB).toNat with iB_def
  have hfl0 : 0 ≤ Int.floor h := Int.floor_nonneg.mpr hh0
  have hfl0B : 0 ≤ Int.floor hB := Int.floor_nonneg.mpr (le_trans hh0 hhh)
  have hi_eq : ((i : ℕ) : ℚ) = ((Int.floor h : ℤ) : ℚ) := by
    rw [i_def]
    exact_mod_cast congrArg (fun z : ℤ => (z : ℚ)) (Int.toNat_of_nonneg hfl0)
  have hiB_eq : ((iB : ℕ) : ℚ) = ((Int.floor hB : ℤ) : ℚ) := by
    rw [iB_def]
    exact_mod_cast congrArg (fun z : ℤ => (z : ℚ)) (Int.toNat_of_nonneg hfl0B)
  have hi_le : (i : ℚ) ≤ h := by
    rw [hi_eq]
    exact Int.floor_le h
  have hlt_i1 : h < (i : ℚ) + 1 := by
    rw [hi_eq]
    exact Int.lt_floor_add_one h
  have hiB_le : (iB : ℚ) ≤ hB := by
    rw [hiB_eq]
    exact Int.floor_le hB
  have hlt_iB1 : hB < (iB : ℚ) + 1 := by
    rw [hiB_eq]
    exact Int.lt_floor_add_one hB
  have hiiB : i ≤ iB := by
    have := Int.floor_mono hhh
    omega
  have hiB_top : iB ≤ n - 1 := by
    have h1 : Int.floor hB ≤ (n : ℤ) - 1 := by
      have h2 : ((n : ℤ) - 1 : ℤ) = Int.floor (((n : ℚ) - 1 : ℚ)) := by
        rw [show ((n : ℚ) - 1 : ℚ) = (((n : ℤ) - 1 : ℤ) : ℚ) by push_cast; ring]
        rw [Int.floor_intCast]
      rw [h2]
      exact Int.floor_mono hhBtop
    omega
  -- value bounds for the interpolation
  have key_low : ∀ (m : ℕ) (z : ℚ), (m : ℚ) ≤ z → z < (m : ℚ) + 1 → m + 1 < n →
      xs.getD m 0 ≤ xs.getD m 0 + (z - (m : ℚ)) * (xs.getD (m + 1) 0 - xs.getD m 0) := by
    intro m z hmz _ hmn
    have hadj : xs.getD m 0 ≤ xs.getD (m + 1) 0 :=
      sorted_getD_mono xs hs m (m + 1) (by omega) (by omega)
    nlinarith
  have key_high : ∀ (m : ℕ) (z : ℚ), (m : ℚ) ≤ z → z < (m : ℚ) + 1 → m + 1 < n →
      xs.getD m 0 + (z - (m : ℚ)) * (xs.getD (m + 1) 0 - xs.getD m 0) ≤
        xs.getD (m + 1) 0 := by
    intro m z hmz hz1 hmn
    have hadj : xs.getD m 0 ≤ xs.getD (m + 1) 0 :=
      sorted_getD_mono xs hs m (m + 1) (by omega) (by omega)
    nlinarith
  show (if i + 1 < n then
      xs.getD i 0 + (h - (i : ℚ)) * (xs.getD (i + 1) 0 - xs.getD i 0)
    else xs.getD (n - 1) 0) ≤
    (if iB + 1 < n then
      xs.getD iB 0 + (hB - (iB : ℚ)) * (xs.getD (iB + 1) 0 - xs.getD iB 0)
    else xs.getD (n - 1) 0)
  by_cases hc : i + 1 < n
  · by_cases hcB : iB + 1 < n
    · rw [if_pos hc, if_pos hcB]
      rcases Nat.lt_or_ge i iB with hlt | hge
      · calc xs.getD i 0 + (h - (i : ℚ)) * (xs.getD (i + 1) 0 - xs.getD i 0)
            ≤ xs.getD (i + 1) 0 := key_high i h hi_le hlt_i1 hc
          _ ≤ xs.getD iB 0 := sorted_getD_mono xs hs (i + 1) iB (by omega) (by omega)
          _ ≤ xs.getD iB 0 + (hB - (iB : ℚ)) * (xs.getD (iB + 1) 0 - xs.getD iB 0) :=
            key_low iB hB hiB_le hlt_iB1 hcB
      · have heq : iB = i := by omega
        rw [heq]
        have hadj : xs.getD i 0 ≤ xs.getD (i + 1) 0 :=
          sorted_getD_mono xs hs i (i + 1) (by omega) (by omega)
        nlinarith [hadj, hhh]
    · rw [if_pos hc, if_neg hcB]
      calc xs.getD i 0 + (h - (i : ℚ)) * (xs.getD (i + 1) 0 - xs.getD i 0)
          ≤ xs.getD (i + 1) 0 := key_high i h hi_le hlt_i1 hc
        _ ≤ xs.getD (n - 1) 0 := sorted_getD_mono xs hs (i + 1) (n - 1) (by omega) (by omega)
  · have hcB : ¬ iB + 1 < n := by omega
    rw [if_neg hc, if_neg hcB]

lemma length_filter_add_length_filter_le (l : List ℚ) (p q : ℚ → Bool)
    (hpq : ∀ x, ¬(p x = true ∧ q x = true)) :
    (l.filter p).length + (l.filter q).length ≤ l.length := by
  induction l with
  | nil => simp
  | cons a l ih =>
    by_cases hpa : p a = true
    · have hqa : q a = false := by
        cases hq2 : q a
        · rfl
        · exact absurd ⟨hpa, hq2⟩ (hpq a)
      simp [List.filter_cons, hpa, hqa]
      omega
    · have hpa2 : p a = false := by simpa using hpa
      cases hqa : q a
      · simp [List.filter_cons, hpa2, hqa]
        omega
      · simp [List.filter_cons, hpa2, hqa]
        omega

/-- C6: on every non-empty input vector, `calculate_percent_outliers`
succeeds, the returned outlier fraction lies in `[0, 1]`, and the returned
IQR is non-negative. -/
theorem C6_percent_outliers_in_unit_interval (values_list : List ℚ)
    (h : 1 ≤ values_list.length) :
    ∃ p iqr, calculate_percent_outliers values_list = Except.ok (p, iqr) ∧
      0 ≤ p ∧ p ≤ 1 ∧ 0 ≤ iqr := by
  have hne : ¬ values_list.length = 0 := by omega
  have hs : (values_list.insertionSort (· ≤ ·)).Sorted (· ≤ ·) :=
    List.sorted_insertionSort _ _
  have hlen : (values_list.insertionSort (· ≤ ·)).length = values_list.length :=
    (List.perm_insertionSort _ _).length_eq
  have hsne : values_list.insertionSort (· ≤ ·) ≠ [] := by
    intro e
    rw [e] at hlen
    simp only [List.length_nil] at hlen
    omega
  set s := values_list.insertionSort (· ≤ ·) with s_def
  set q3 := percentileLin s 75 with q3_def
  set q1 := percentileLin s 25 with q1_def
  have hq13 : q1 ≤ q3 :=
    percentileLin_mono s hs hsne 25 75 (by norm_num) (by norm_num) (by norm_num)
  set hiT := q3 + (3 / 2) * (q3 - q1) with hiT_def
  set loT := q1 - (3 / 2) * (q3 - q1) with loT_def
  have hdisj : ∀ x : ℚ, ¬((decide (hiT < x)) = true ∧ (decide (x < loT)) = true) := by
    intro x ⟨h1, h2⟩
    have h1B : hiT < x := of_decide_eq_true h1
    have h2B : x < loT := of_decide_eq_true h2
    rw [hiT_def] at h1B
    rw [loT_def] at h2B
    linarith
  have hcount :
      (s.filter fun v => hiT < v).length + (s.filter fun v => v < loT).length ≤
        s.length :=
    length_filter_add_length_filter_le s _ _ hdisj
  have hslen : (0 : ℚ) < (s.length : ℚ) := by
    have : 1 ≤ s.length := by omega
    exact_mod_cast Nat.lt_of_lt_of_le Nat.zero_lt_one this
  refine ⟨(((s.filter fun v => hiT < v).length +
      (s.filter fun v => v < loT).length : ℕ) : ℚ) / (s.length : ℚ),
    q3 - q1, ?_, ?_, ?_, ?_⟩
  · unfold calculate_percent_outliers
    rw [if_neg hne]
  · positivity
  · rw [div_le_one hslen]
    exact_mod_cast hcount
  · linarith

/-- C6 witness: the bounds theorem applied to the concrete vector `[1, 2]`. -/
theorem C6_witness :
    1 ≤ ([1, 2] : List ℚ).length ∧
    ∃ p iqr, calculate_percent_outliers [1, 2] = Except.ok (p, iqr) ∧
      0 ≤ p ∧ p ≤ 1 ∧ 0 ≤ iqr :=
  ⟨by decide, C6_percent_outliers_in_unit_interval [1, 2] (by decide)⟩

/-- A 3-dimensional NumPy array of floats, as nested (rectangular) lists. -/
abbrev Arr3 := List (List (List ℚ))

/-- `array.nonzero()` for a 3-D array: the index triples of the non-zero
entries, in C (row-major) order. -/
def nz3 (d : Arr3) : List (ℕ × ℕ × ℕ) :=
  d.enum.flatMap fun p =>
    p.2.enum.flatMap fun q =>
      q.2.enum.filterMap fun r =>
        if r.2 ≠ 0 then some (p.1, q.1, r.1) else none

/-- `np.asarray(array.nonzero()).flatten()` for a 3-D array: the `(3, nnz)`
index matrix flattened row-major, i.e. all first coordinates, then all
second coordinates, then all third coordinates, as floats.  Note these are
the coordinates of the non-zero entries, not the entries themselves. -/
def nzFlat (d : Arr3) : List ℚ :=
  let t := nz3 d
  (t.map fun p => (p.1 : ℚ)) ++ (t.map fun p => (p.2.1 : ℚ)) ++
    (t.map fun p => (p.2.2 : ℚ))

/-- Fancy indexing `data[idxs]` with a list of index triples (this is what
`data[mask.nonzero()]` does: the values of `data` at the listed positions). -/
def fancyIndex (d : Arr3) (idxs : List (ℕ × ℕ × ℕ)) : List ℚ :=
  idxs.map fun p => ((d.getD p.1 []).getD p.2.1 []).getD p.2.2 0

/-- `np.mean` of a vector (sum divided by length; NumPy returns NaN on the
empty vector, a case none of the verified statements reaches). -/
def pyMeanQ (l : List ℚ) : ℚ := l.sum / l.length

/-- Population variance `np.var` of a vector (mean squared deviation). -/
def popVarQ (l : List ℚ) : ℚ :=
  (l.map fun x => (x - pyMeanQ l) ^ 2).sum / l.length

/-- Embedding of `create_threshold_mask` (temporal_qc.py, lines 329-343):
cell-wise `1` where `data > threshold`, else `0`. -/
def create_threshold_mask (data : Arr3) (threshold : ℚ) : Arr3 :=
  data.map (List.map (List.map fun v => if threshold < v then 1 else 0))

/-- Modelled from the spec: `get_masked_data` lives in `qap.qap_utils`,
which is not among the sources.  Per the spec's MaskedVoxelSeries contract
("only True-masked voxels contribute to aggregations") it restricts `data`
to the voxels where `mask` is non-zero, zero elsewhere, keeping the shape
(the caller immediately calls `.nonzero()` on the result). -/
def get_masked_data (data mask : Arr3) : Arr3 :=
  List.zipWith (List.zipWith (List.zipWith fun v m => if m ≠ 0 then v else 0))
    data mask

/-- Embedding of `calc_estimated_csf_nuisance` (temporal_qc.py, lines
346-364), exactly as written: `all_tstd` is
`np.asarray(map.nonzero()).flatten()` — the flattened *index* matrix of the
non-zero entries (not the entries); it is sorted, the cutoff is taken at
index `int(0.98 * len(all_tstd))` (an exact `0.98 * len` here, with `int`
truncation = floor on non-negatives), the map is thresholded at that cutoff,
and the returned value is the mean of the flattened index matrix of the
non-zero entries of the masked map.  Indexing an empty slice raises
(IndexError). -/
def calc_estimated_csf_nuisance (temporal_std_map : Arr3) : Except PyErr ℚ :=
  let all_tstd := nzFlat temporal_std_map
  let all_tstd_sorted := all_tstd.insertionSort (· ≤ ·)
  let top_2 : ℕ := 98 * all_tstd.length / 100
  match all_tstd_sorted.drop top_2 with
  | [] => Except.error PyErr.indexError
  | cutoff :: _ =>
    let estimated_nuisance_mask := create_threshold_mask temporal_std_map cutoff
    let nuisance_stds := get_masked_data temporal_std_map estimated_nuisance_mask
    Except.ok (pyMeanQ (nzFlat nuisance_stds))

/-- All entries of a 3-D array, flattened in C order. -/
def flatten3 (d : Arr3) : List ℚ :=
  d.flatMap fun plane => plane.flatMap fun row => row

/-- Following the spec's words (§4.5, the algorithm C3 states): flatten the
non-zero std *values*, sort ascending, take the cutoff at index
`floor(0.98 × count)` of that sorted value list, re-threshold the original
map at that cutoff, and return the average of the std values selected by
the resulting mask (`none` when the cutoff index or the average is
ill-defined). -/
def nuisanceSpec (temporal_std_map : Arr3) : Option ℚ :=
  let vals := (flatten3 temporal_std_map).filter fun v => v ≠ 0
  let s := vals.insertionSort (· ≤ ·)
  match s.drop (98 * vals.length / 100) with
  | [] => none
  | cutoff :: _ =>
    let mask := create_threshold_mask temporal_std_map cutoff
    let sel := ((flatten3 temporal_std_map).zip (flatten3 mask)).filterMap
      fun p => if p.2 ≠ 0 then some p.1 else none
    if sel = [] then none else some (pyMeanQ sel)

/-- The failing input of C3: a `1 × 1 × 51` temporal-std map whose voxel
values are `1, 2, ..., 51`. -/
def stdMap51 : Arr3 := [[(List.range 51).map fun k => ((k + 1 : ℕ) : ℚ)]]

/-- C3: on `stdMap51` the code returns the mean of the flattened non-zero
*coordinates* of the masked map, `97/6`, while the algorithm the claim
describes (flatten the non-zero std *values*, cutoff at index
`floor(0.98 · 51) = 49` of the sorted values, i.e. `50`, then average the
values above it) yields `51`.  The code operates on `array.nonzero()`
output — index arrays — where the claim (and the rest of the pipeline, cf.
`data[mask.nonzero()]` in `sfs_timeseries`) uses the array's values. -/
theorem C3_nuisance_uses_indices_not_values :
    calc_estimated_csf_nuisance stdMap51 = Except.ok (97 / 6) ∧
    nuisanceSpec stdMap51 = some 51 ∧ (97 / 6 : ℚ) ≠ 51 := by
  refine ⟨by decide, by decide, by decide⟩

/-- Embedding of `sfs_timeseries` (temporal_qc.py, lines 394-424).  The
masked mean-functional values and masked temporal-std values are collected
by fancy indexing with `func_mask_data.nonzero()`; the whole-brain mean and
the nuisance estimate are computed; then the loop body executes
`arg_tuples.append(voxel_ts, total_func_mean, voxel_std, nuisance_mean_std)`
— `list.append` takes exactly one argument, so the first iteration raises
TypeError.  With no included voxel the loop never runs and `map` over the
empty list returns `[]`. -/
def sfs_timeseries (func_mean func_mask temporal_std_map : Arr3) :
    Except PyErr (List ℝ) :=
  let masked_func_mean := fancyIndex func_mean (nz3 func_mask)
  let total_func_mean := pyMeanQ masked_func_mean
  let masked_tstd := fancyIndex temporal_std_map (nz3 func_mask)
  match calc_estimated_csf_nuisance temporal_std_map with
  | Except.error e => Except.error e
  | Except.ok nuisance_mean_std =>
    if masked_func_mean.zip masked_tstd = [] then Except.ok []
    else
      let _ := total_func_mean
      let _ := nuisance_mean_std
      Except.error PyErr.typeError

/-- Embedding of `sfs_voxel` (temporal_qc.py, lines 367-391): the per-voxel
signal-fluctuation value
`(mean(ts) / total_func_mean) * (std(ts) / nuisance_mean_std)`. -/
noncomputable def sfs_voxel (voxel_ts : List ℚ)
    (total_func_mean nuisance_mean_std : ℚ) : ℝ :=
  let voxel_ts_mean := pyMeanQ voxel_ts
  let voxel_ts_std : ℝ := Real.sqrt ((popVarQ voxel_ts : ℚ) : ℝ)
  ((voxel_ts_mean : ℝ) / (total_func_mean : ℝ)) *
    (voxel_ts_std / (nuisance_mean_std : ℝ))

/-- C10: `sfs_timeseries` never returns the per-voxel SFS series the claim
describes: for any mask selecting at least one voxel the loop's first
iteration raises TypeError (`list.append` called with four arguments), here
evaluated on a concrete two-voxel input. -/
theorem C10_sfs_timeseries_type_error :
    sfs_timeseries [[[5, 7]]] [[[1, 1]]] [[[2, 3]]] =
      Except.error PyErr.typeError := by
  rfl

/-- C8 (amended): `pass_floats` parses every line independently with
`float`, silently discarding lines on which `float` raises; the warning line
is dropped but the NaN line parses successfully, so the fixture yields
exactly `[3.5, 2.1, nan]`. -/
theorem C8_amended_nan_kept :
    pass_floats afniFixture =
      [PyFloat.finite (7 / 2), PyFloat.finite (21 / 10), PyFloat.nan] := by
  decide
